import Mathlib

/-!
Shallow embedding of the object store and tree codec of the `lit` repository
(Go sources: src/src/cmd.go and the command dispatcher in src/unnamed/part_000).
Byte sequences are modelled as `List Nat` (each element a byte value 0..255;
hash words are naturals reduced mod 2^32 explicitly).  The filesystem is an
association list from normalized path strings (byte lists) to file contents.
The zlib codec is external to the repository and is modelled as an abstract
pair of functions `comp`/`decomp` together with the round-trip hypothesis
`decomp (comp x) = x`; SHA-1 (crypto/sha1) is embedded in full below.
Go runtime panics from out-of-range indexing or slicing are modelled as
`Option.none`.
-/

/-- Byte list of a Lean string literal (all literals used are ASCII, matching
the Go source's byte strings). -/
def strBytes (s : String) : List Nat := s.data.map Char.toNat

/-- Word size modulus for 32-bit arithmetic in SHA-1. -/
def M32 : Nat := 4294967296

/-- Left-rotate a 32-bit word by n bits. -/
def rotl (n x : Nat) : Nat := ((x <<< n) ||| (x >>> (32 - n))) % M32

/-- Big-endian 4-byte rendering of a 32-bit word. -/
def be32 (n : Nat) : List Nat := [(n >>> 24) % 256, (n >>> 16) % 256, (n >>> 8) % 256, n % 256]

/-- Big-endian 8-byte rendering of a 64-bit length field. -/
def be64 (n : Nat) : List Nat := (List.range 8).map (fun i => (n >>> (8 * (7 - i))) % 256)

/-- SHA-1 padding: append 0x80, zero bytes to 56 mod 64, then the bit length. -/
def sha1Pad (msg : List Nat) : List Nat :=
  msg ++ 128 :: (List.replicate ((119 - msg.length % 64) % 64) 0 ++ be64 (8 * msg.length))

/-- The sixteen big-endian 32-bit words of one 64-byte block. -/
def bytesToWords (block : List Nat) : List Nat :=
  (List.range 16).map (fun k =>
    block.getD (4 * k) 0 * 16777216 + block.getD (4 * k + 1) 0 * 65536 +
    block.getD (4 * k + 2) 0 * 256 + block.getD (4 * k + 3) 0)

/-- Extend the sixteen words of a block to the eighty-word message schedule. -/
def sha1Extend (w : List Nat) : List Nat :=
  (List.range 64).foldl (fun acc j =>
    acc ++ [rotl 1 ((acc.getD (j + 13) 0) ^^^ (acc.getD (j + 8) 0) ^^^
      (acc.getD (j + 2) 0) ^^^ (acc.getD j 0))]) w

/-- Round function of SHA-1. -/
def sha1F (i b c d : Nat) : Nat :=
  if i < 20 then (b &&& c) ||| ((b ^^^ (M32 - 1)) &&& d)
  else if i < 40 then b ^^^ c ^^^ d
  else if i < 60 then (b &&& c) ||| (b &&& d) ||| (c &&& d)
  else b ^^^ c ^^^ d

/-- Round constants of SHA-1. -/
def sha1K (i : Nat) : Nat :=
  if i < 20 then 1518500249
  else if i < 40 then 1859775393
  else if i < 60 then 2400959708
  else 3395469782

/-- One SHA-1 round on the five-word state. -/
def sha1Round (w : List Nat) (s : Nat × Nat × Nat × Nat × Nat) (i : Nat) :
    Nat × Nat × Nat × Nat × Nat :=
  match s with
  | (a, b, c, d, e) =>
    ((rotl 5 a + sha1F i b c d + e + sha1K i + w.getD i 0) % M32, a, rotl 30 b, c, d)

/-- Compress one 64-byte block into the running hash state. -/
def sha1Block (h : Nat × Nat × Nat × Nat × Nat) (block : List Nat) :
    Nat × Nat × Nat × Nat × Nat :=
  match h with
  | (h0, h1, h2, h3, h4) =>
    match (List.range 80).foldl (sha1Round (sha1Extend (bytesToWords block))) (h0, h1, h2, h3, h4) with
    | (a, b, c, d, e) =>
      ((h0 + a) % M32, (h1 + b) % M32, (h2 + c) % M32, (h3 + d) % M32, (h4 + e) % M32)

/-- SHA-1 over a whole message: pad, then fold the blocks. -/
def sha1Core (msg : List Nat) : Nat × Nat × Nat × Nat × Nat :=
  (List.range ((sha1Pad msg).length / 64)).foldl
    (fun h k => sha1Block h (((sha1Pad msg).drop (64 * k)).take 64))
    (1732584193, 4023233417, 2562383102, 271733878, 3285377520)

/-- The twenty digest bytes of SHA-1. -/
def sha1Bytes (msg : List Nat) : List Nat :=
  match sha1Core msg with
  | (h0, h1, h2, h3, h4) => be32 h0 ++ be32 h1 ++ be32 h2 ++ be32 h3 ++ be32 h4

/-- ASCII code of one lowercase hexadecimal digit. -/
def hexDigit (d : Nat) : Nat := if d < 10 then 48 + d else 87 + d

/-- Lowercase hexadecimal rendering of a byte list, two digits per byte
(Go's Sprintf with the x verb on a byte slice). -/
def hexOfBytes (l : List Nat) : List Nat :=
  l.foldr (fun b acc => hexDigit (b / 16) :: hexDigit (b % 16) :: acc) []

/-- The 40-character lowercase hex identifier of a message, as HashObject
computes it (src/src/cmd.go:143-145). -/
def sha1hex (msg : List Nat) : List Nat := hexOfBytes (sha1Bytes msg)

/-- Scan a byte list for the first occurrence of the delimiter b, returning
the bytes before it and the bytes after it.  This is the linear scan the Go
source performs with an unchecked index loop; running off the end of the
input (a Go index-out-of-range panic) is modelled as none. -/
def scanUntil (b : Nat) : List Nat → Option (List Nat × List Nat)
  | [] => none
  | x :: xs =>
    if x = b then some ([], xs)
    else (scanUntil b xs).map (fun pr => (x :: pr.1, pr.2))

/-- Take exactly n bytes from the front of a list, returning them and the
remainder; models the Go slice expression s[i : i+n], whose out-of-range
panic is none. -/
def takeExact (n : Nat) (l : List Nat) : Option (List Nat × List Nat) :=
  if n ≤ l.length then some (l.take n, l.drop n) else none

/-- Split a decompressed envelope at its first NUL byte into header and body,
exactly as CatFile does (src/src/cmd.go:77-91): a linear search for byte 0,
error when none is found, no validation of the header text. -/
def unframe (content : List Nat) : Option (List Nat × List Nat) := scanUntil 0 content

/-- Decimal ASCII digits of a natural number, most significant first; fuel
recursion with fuel larger than the number. -/
def decAux : Nat → Nat → List Nat → List Nat
  | 0, _, acc => acc
  | fuel + 1, n, acc =>
    if n < 10 then (48 + n) :: acc
    else decAux fuel (n / 10) ((48 + n % 10) :: acc)

/-- Decimal ASCII rendering of a natural number (the Sprintf d verb). -/
def natDecBytes (n : Nat) : List Nat := decAux (n + 1) n []

/-- Numeric value denoted by a list of decimal ASCII digits. -/
def decValue (l : List Nat) : Nat := l.foldl (fun a d => a * 10 + (d - 48)) 0

/-- Modelled from the spec: the generic envelope Frame(type, payload) of
spec sections 3 and 4.1 — type label, one space, decimal ASCII payload
length, one NUL, then the payload.  In src only HashObject realizes it,
instantiating the label to "blob" (hashObjectEnvelope below agrees with it);
WriteTree, the caller that would instantiate "tree", is absent from src. -/
def frameEnv (t p : List Nat) : List Nat := t ++ (32 :: natDecBytes p.length) ++ (0 :: p)

/-- The envelope HashObject builds (src/src/cmd.go:141): the Sprintf of
"blob %d\x00%s" over the payload size and bytes.  In this pure embedding the
file's content is the payload, so the Stat size equals its length. -/
def hashObjectEnvelope (p : List Nat) : List Nat :=
  strBytes "blob " ++ natDecBytes p.length ++ 0 :: p

/-- Declared length field of an envelope: split at the first NUL, split the
header at the first space, and read the remaining digits as a decimal
number.  Used to state that the length field denotes the payload length. -/
def declaredLen (env : List Nat) : Option Nat :=
  match unframe env with
  | none => none
  | some (header, _) =>
    match scanUntil 32 header with
    | none => none
    | some (_, digits) =>
      if digits ≠ [] ∧ ∀ d ∈ digits, 48 ≤ d ∧ d ≤ 57 then some (decValue digits) else none

/-- Header well-formedness in the sense of the spec (section 4.1): a label,
one space, then a nonempty run of decimal digits. -/
def headerOk (h : List Nat) : Bool :=
  match scanUntil 32 h with
  | none => false
  | some (lab, digits) =>
    !lab.isEmpty && !digits.isEmpty && digits.all (fun d => 48 ≤ d && d ≤ 57)


/-- Path derivation on the read side (CatFile, src/src/cmd.go:51, and LsTree,
src/src/cmd.go:282): the Go slices fileSHA[:2] and fileSHA[2:], which panic
when the identifier has fewer than 2 bytes; the panic is modelled as none. -/
def catFileDerivePath (id : List Nat) : Option (List Nat × List Nat) :=
  if 2 ≤ id.length then some (id.take 2, id.drop 2) else none

/-- The loop of HashObject (src/src/cmd.go:147-155) that builds the object
path character by character, inserting a slash after the second character. -/
def blobPathLoop : Nat → List Nat → List Nat → List Nat
  | _, acc, [] => acc
  | i, acc, v :: rest =>
    blobPathLoop (i + 1) (acc ++ [v] ++ (if i = 1 then [47] else [])) rest

/-- The write-side object path of HashObject, starting from "./.git/objects/". -/
def blobPath (hash : List Nat) : List Nat := blobPathLoop 0 (strBytes "./.git/objects/") hash

/-- The read-side object path of CatFile and LsTree: the Sprintf of
".git/objects/%s/%s" over the derived dir and file components. -/
def catPathOf (d f : List Nat) : List Nat := strBytes ".git/objects/" ++ d ++ 47 :: f

/-- Filesystem model: an association list from normalized paths to file
contents, most recent write first. -/
abbrev FS := List (List Nat × List Nat)

/-- Normalize a path as the operating system does when resolving it: a
leading "./" refers to the same file as the bare remainder. -/
def normPath (p : List Nat) : List Nat := if p.take 2 = [46, 47] then p.drop 2 else p

/-- Create or truncate a file (os.Create followed by Write). -/
def fsWrite (p v : List Nat) (st : FS) : FS := (normPath p, v) :: st

/-- Open and read a file (os.Open followed by ReadAll). -/
def fsRead (p : List Nat) (st : FS) : Option (List Nat) :=
  (st.find? (fun kv => kv.1 == normPath p)).map (fun kv => kv.2)

/-- HashObject as a state transformer (src/src/cmd.go:120-189): frame the
blob, hash the envelope, and when write is set, store the compressed
envelope at the derived path; the identifier is computed either way.  The
zlib writer is the abstract parameter comp. -/
def hashObjectRun (comp : List Nat → List Nat) (write : Bool) (content : List Nat) (st : FS) :
    List Nat × FS :=
  let env := hashObjectEnvelope content
  let h := sha1hex env
  if write then (h, fsWrite (blobPath h) (comp env) st) else (h, st)

/-- Modelled from the spec: Put(type, payload) of spec section 4.2 for a
general type label.  HashObject (src/src/cmd.go:120-189) realizes exactly
this with the label instantiated to "blob"; WriteTree, the caller that
would store "tree" objects, is absent from src. -/
def putObject (comp : List Nat → List Nat) (write : Bool) (t p : List Nat) (st : FS) :
    List Nat × FS :=
  let env := frameEnv t p
  let h := sha1hex env
  if write then (h, fsWrite (blobPath h) (comp env) st) else (h, st)

/-- CatFile as a reader (src/src/cmd.go:48-96): derive the path from the
identifier, read the file, decompress with the abstract zlib reader decomp,
and split the envelope at its first NUL into header and body. -/
def getObject (decomp : List Nat → List Nat) (st : FS) (id : List Nat) :
    Option (List Nat × List Nat) :=
  match catFileDerivePath id with
  | none => none
  | some (d, f) =>
    match fsRead (catPathOf d f) st with
    | none => none
    | some data => unframe (decomp data)

/-- One directory-listing record as the source stores it: mode, name and
identifier byte strings (src/src/cmd.go:341-345). -/
structure TreeEntry where
  mode : List Nat
  name : List Nat
  sha : List Nat
deriving DecidableEq, Repr

/-- Entry with its identifier rendered in hex, as the LsTree parse loop
stores it (src/src/cmd.go:370). -/
def entryHex (e : TreeEntry) : TreeEntry := ⟨e.mode, e.name, hexOfBytes e.sha⟩

/-- The parse loop of LsTree (src/src/cmd.go:349-379) over the tree payload:
scan the mode up to a space, the name up to a NUL, then take twenty raw
identifier bytes, until the input is exhausted.  Unchecked Go indexing
panics are none; fuel recursion, with the input length as sufficient fuel
since every entry consumes at least 22 bytes. -/
def parseTreeAux : Nat → List Nat → Option (List TreeEntry)
  | _, [] => some []
  | 0, _ :: _ => none
  | fuel + 1, l =>
    match scanUntil 32 l with
    | none => none
    | some (mode, r1) =>
      match scanUntil 0 r1 with
      | none => none
      | some (name, r2) =>
        match takeExact 20 r2 with
        | none => none
        | some (sha, r3) =>
          match parseTreeAux fuel r3 with
          | none => none
          | some es => some (⟨mode, name, hexOfBytes sha⟩ :: es)

/-- Tree payload decoding (the LsTree parse loop run to completion). -/
def parseTree (l : List Nat) : Option (List TreeEntry) := parseTreeAux l.length l

/-- Byte-wise lexicographic strict comparison, the order Go's string less
than operator uses (src/src/cmd.go:382). -/
def bytesLt : List Nat → List Nat → Bool
  | [], [] => false
  | [], _ :: _ => true
  | _ :: _, [] => false
  | a :: as, b :: bs => if a < b then true else if b < a then false else bytesLt as bs

/-- Non-strict name order on entries. -/
def entryLe (a b : TreeEntry) : Bool := !(bytesLt b.name a.name)

/-- Strict name order on entries, as a proposition. -/
def entryLtP (a b : TreeEntry) : Prop := bytesLt a.name b.name = true

/-- Insert an entry into a name-sorted list. -/
def insertEntry (e : TreeEntry) : List TreeEntry → List TreeEntry
  | [] => [e]
  | f :: rest => if entryLe e f then e :: f :: rest else f :: insertEntry e rest

/-- Sort entries by name ascending, byte-wise. -/
def sortByName : List TreeEntry → List TreeEntry
  | [] => []
  | e :: rest => insertEntry e (sortByName rest)

/-- Modelled from the spec: one encoded entry of a Tree Record, spec
sections 3 and 4.3 — mode, one space, name, one NUL, then the 20 raw
identifier bytes.  WriteTree, the encoder, is absent from src; this matches
the layout the LsTree parse loop reads back. -/
def encodeEntry (e : TreeEntry) : List Nat := e.mode ++ 32 :: (e.name ++ 0 :: e.sha)

/-- Concatenation of encoded entries in the given (on-disk) order. -/
def entriesBytes (l : List TreeEntry) : List Nat :=
  l.foldr (fun e acc => encodeEntry e ++ acc) []

/-- Modelled from the spec: Encode(entries) of spec section 4.3 — sort the
entries by name ascending byte-wise, then concatenate their encodings.
WriteTree, which would implement it, is absent from src. -/
def treeEncode (l : List TreeEntry) : List Nat := entriesBytes (sortByName l)

/-- Concrete entry with name "a" used in the two-entry scenario. -/
def entA : TreeEntry := ⟨strBytes "100644", strBytes "a", List.replicate 20 17⟩

/-- Concrete entry with name "b" used in the two-entry scenario. -/
def entB : TreeEntry := ⟨strBytes "100644", strBytes "b", List.replicate 20 34⟩

set_option maxRecDepth 100000 in
/-- C10: storing the 11-byte payload "hello world" as a blob yields exactly
the identifier 95d09f2b10159347eece71399a7e2e907ea3df4f, the SHA-1 digest of
the envelope "blob 11\x00hello world" in lowercase hex. -/
theorem C10_blob_hello_world :
    (hashObjectRun (fun x => x) true (strBytes "hello world") []).1
        = strBytes "95d09f2b10159347eece71399a7e2e907ea3df4f"
    ∧ hashObjectEnvelope (strBytes "hello world") = strBytes "blob 11\x00hello world" := by
  decide

/-- C4: CatFile derives the object path with the unchecked slices
fileSHA[:2] and fileSHA[2:]; an identifier of length 1 makes the slice
panic (modelled as none) instead of failing with a typed InvalidIdentifier,
and an identifier of length 2 — still shorter than the 3-character minimum —
is not rejected either: a path is derived from it. -/
theorem C4_short_identifier_faults :
    catFileDerivePath (strBytes "a") = none
    ∧ catFileDerivePath (strBytes "ab") = some (strBytes "ab", []) := by
  decide

/-- C5: the LsTree parse loop scans for delimiters and slices twenty
identifier bytes without bounds checks; a payload with no NUL after the
name, and a payload with only three bytes where the identifier should be,
both make it index out of range (modelled as none) instead of failing with
a typed MalformedTree. -/
theorem C5_truncated_tree_faults :
    parseTree (strBytes "100644 a") = none
    ∧ parseTree (strBytes "100644 a\x00abc") = none := by
  decide

/-- C8 counterexample: an envelope whose header "bad" is not of the form
label, space, decimal length is nonetheless split successfully by the
unframing code, which only searches for the first NUL byte and never
validates the header. -/
theorem C8_malformed_header_accepted :
    unframe (strBytes "bad\x00x") = some (strBytes "bad", strBytes "x")
    ∧ headerOk (strBytes "bad") = false := by
  decide

/-- C9: with write set to false, HashObject computes the same identifier as
with write set to true and leaves the filesystem untouched. -/
theorem C9_dry_run (comp : List Nat → List Nat) (p : List Nat) (st : FS) :
    (hashObjectRun comp false p st).1 = (hashObjectRun comp true p st).1
    ∧ (hashObjectRun comp false p st).2 = st :=
  ⟨rfl, rfl⟩

theorem decAux_acc (fuel : Nat) : ∀ n acc, decAux fuel n acc = decAux fuel n [] ++ acc := by
  induction fuel with
  | zero => intro n acc; simp [decAux]
  | succ fuel ih =>
    intro n acc
    by_cases h : n < 10
    · simp [decAux, h]
    · simp only [decAux, if_neg h]
      rw [ih (n / 10) ((48 + n % 10) :: acc), ih (n / 10) [48 + n % 10]]
      simp

theorem decAux_fuel (f1 : Nat) : ∀ f2 n acc, n < f1 → n < f2 →
    decAux f1 n acc = decAux f2 n acc := by
  induction f1 with
  | zero => intro f2 n acc h1 _; omega
  | succ f1 ih =>
    intro f2 n acc h1 h2
    match f2, h2 with
    | f2 + 1, _ =>
      by_cases h : n < 10
      · simp [decAux, h]
      · simp only [decAux, if_neg h]
        exact ih f2 (n / 10) _ (by omega) (by omega)

theorem natDecBytes_lt_ten (n : Nat) (h : n < 10) : natDecBytes n = [48 + n] := by
  simp [natDecBytes, decAux, h]

theorem natDecBytes_ge_ten (n : Nat) (h : 10 ≤ n) :
    natDecBytes n = natDecBytes (n / 10) ++ [48 + n % 10] := by
  have hn : ¬ n < 10 := by omega
  show decAux (n + 1) n [] = _
  rw [show decAux (n + 1) n [] = decAux n (n / 10) [48 + n % 10] by simp [decAux, hn]]
  rw [decAux_acc n (n / 10) [48 + n % 10]]
  rw [decAux_fuel n (n / 10 + 1) (n / 10) [] (by omega) (by omega)]
  rfl

theorem decValue_natDecBytes (n : Nat) : decValue (natDecBytes n) = n := by
  induction n using Nat.strong_induction_on with
  | _ n ih =>
    by_cases h : n < 10
    · simp [natDecBytes_lt_ten n h, decValue]
    · rw [natDecBytes_ge_ten n (by omega), decValue, List.foldl_append]
      have hrec : decValue (natDecBytes (n / 10)) = n / 10 := ih (n / 10) (by omega)
      rw [decValue] at hrec
      rw [hrec]
      simp
      omega

theorem decAux_digits (fuel : Nat) : ∀ n acc, (∀ d ∈ acc, 48 ≤ d ∧ d ≤ 57) →
    ∀ d ∈ decAux fuel n acc, 48 ≤ d ∧ d ≤ 57 := by
  induction fuel with
  | zero => intro n acc hacc; simpa [decAux] using hacc
  | succ fuel ih =>
    intro n acc hacc d hd
    rw [show decAux (fuel + 1) n acc
        = if n < 10 then (48 + n) :: acc
          else decAux fuel (n / 10) ((48 + n % 10) :: acc) from rfl] at hd
    by_cases h : n < 10
    · rw [if_pos h, List.mem_cons] at hd
      rcases hd with hd | hd
      · omega
      · exact hacc d hd
    · rw [if_neg h] at hd
      refine ih (n / 10) ((48 + n % 10) :: acc) ?_ d hd
      intro d' hd'
      rcases List.mem_cons.mp hd' with hd' | hd'
      · omega
      · exact hacc d' hd'

theorem natDecBytes_digits (n : Nat) : ∀ d ∈ natDecBytes n, 48 ≤ d ∧ d ≤ 57 :=
  decAux_digits (n + 1) n [] (by simp)

theorem natDecBytes_ne_nil (n : Nat) : natDecBytes n ≠ [] := by
  by_cases h : n < 10
  · simp [natDecBytes_lt_ten n h]
  · simp [natDecBytes_ge_ten n (by omega)]

theorem zero_not_mem_natDecBytes (n : Nat) : ¬ 0 ∈ natDecBytes n := by
  intro h
  have := natDecBytes_digits n 0 h
  omega

theorem space_not_mem_natDecBytes (n : Nat) : ¬ 32 ∈ natDecBytes n := by
  intro h
  have := natDecBytes_digits n 32 h
  omega

theorem scanUntil_cons (b x : Nat) (xs : List Nat) :
    scanUntil b (x :: xs)
      = if x = b then some ([], xs)
        else (scanUntil b xs).map (fun pr => (x :: pr.1, pr.2)) := rfl

theorem scanUntil_append (b : Nat) : ∀ pre post, ¬ b ∈ pre →
    scanUntil b (pre ++ b :: post) = some (pre, post) := by
  intro pre
  induction pre with
  | nil => intro post _; simp [scanUntil_cons]
  | cons x xs ih =>
    intro post hmem
    have hx : ¬ x = b := fun hc => hmem (by simp [hc])
    rw [List.cons_append, scanUntil_cons, if_neg hx,
      ih post (fun hc => hmem (List.mem_cons_of_mem x hc))]
    rfl

theorem scanUntil_eq_none (b : Nat) : ∀ l, scanUntil b l = none ↔ ¬ b ∈ l := by
  intro l
  induction l with
  | nil => simp [scanUntil]
  | cons x xs ih =>
    constructor
    · intro h hmem
      by_cases hx : x = b
      · rw [scanUntil_cons, if_pos hx] at h
        exact Option.noConfusion h
      · rw [scanUntil_cons, if_neg hx] at h
        have hxs : scanUntil b xs = none := by
          cases hs : scanUntil b xs with
          | none => rfl
          | some pr => rw [hs] at h; exact Option.noConfusion h
        rcases List.mem_cons.mp hmem with hc | hc
        · exact hx hc.symm
        · exact (ih.mp hxs) hc
    · intro hmem
      have hx : ¬ x = b := fun hc => hmem (by simp [hc])
      have hxs : ¬ b ∈ xs := fun hc => hmem (List.mem_cons_of_mem x hc)
      rw [scanUntil_cons, if_neg hx, ih.mpr hxs]
      rfl

theorem scanUntil_eq_some (b : Nat) : ∀ l pre post, scanUntil b l = some (pre, post) →
    ¬ b ∈ pre ∧ l = pre ++ b :: post := by
  intro l
  induction l with
  | nil => intro pre post h; exact Option.noConfusion h
  | cons x xs ih =>
    intro pre post h
    by_cases hx : x = b
    · rw [scanUntil_cons, if_pos hx] at h
      have h' := Option.some.inj h
      have hpre : pre = [] := (congrArg Prod.fst h').symm
      have hpost : post = xs := (congrArg Prod.snd h').symm
      subst hpre
      subst hpost
      subst hx
      simp
    · rw [scanUntil_cons, if_neg hx] at h
      cases hs : scanUntil b xs with
      | none => rw [hs] at h; exact Option.noConfusion h
      | some pr =>
        rw [hs] at h
        have h' := Option.some.inj h
        have hpre : pre = x :: pr.1 := (congrArg Prod.fst h').symm
        have hpost : post = pr.2 := (congrArg Prod.snd h').symm
        subst hpre
        subst hpost
        have hih := ih pr.1 pr.2 hs
        constructor
        · intro hc
          rcases List.mem_cons.mp hc with hc | hc
          · exact hx hc.symm
          · exact hih.1 hc
        · simp [hih.2]

theorem takeExact_append (n : Nat) (l r : List Nat) (h : l.length = n) :
    takeExact n (l ++ r) = some (l, r) := by
  subst h
  rw [takeExact, if_pos (by simp)]
  rw [List.take_left, List.drop_left]

theorem blobPathLoop_ge_two : ∀ (l : List Nat) (i : Nat) (acc : List Nat), 2 ≤ i →
    blobPathLoop i acc l = acc ++ l := by
  intro l
  induction l with
  | nil => intro i acc _; simp [blobPathLoop]
  | cons v rest ih =>
    intro i acc hi
    have hne : ¬ i = 1 := by omega
    rw [show blobPathLoop i acc (v :: rest)
        = blobPathLoop (i + 1) (acc ++ [v] ++ (if i = 1 then [47] else [])) rest from rfl]
    rw [if_neg hne, ih (i + 1) (acc ++ [v] ++ []) (by omega)]
    simp

theorem blobPath_eq (a b : Nat) (rest : List Nat) :
    blobPath (a :: b :: rest) = strBytes "./.git/objects/" ++ a :: b :: 47 :: rest := by
  rw [blobPath]
  rw [show blobPathLoop 0 (strBytes "./.git/objects/") (a :: b :: rest)
      = blobPathLoop 1 (strBytes "./.git/objects/" ++ [a] ++ []) (b :: rest) from rfl]
  rw [show blobPathLoop 1 (strBytes "./.git/objects/" ++ [a] ++ []) (b :: rest)
      = blobPathLoop 2 (strBytes "./.git/objects/" ++ [a] ++ [] ++ [b] ++ [47]) rest from rfl]
  rw [blobPathLoop_ge_two rest 2 _ (by omega)]
  simp

theorem hexOfBytes_length (l : List Nat) : (hexOfBytes l).length = 2 * l.length := by
  induction l with
  | nil => rfl
  | cons x xs ih =>
    rw [show hexOfBytes (x :: xs)
        = hexDigit (x / 16) :: hexDigit (x % 16) :: hexOfBytes xs from rfl]
    simp [ih]
    omega

theorem sha1Bytes_length (msg : List Nat) : (sha1Bytes msg).length = 20 := by
  rw [sha1Bytes]
  rcases sha1Core msg with ⟨h0, h1, h2, h3, h4⟩
  simp [be32]

theorem sha1hex_length (msg : List Nat) : (sha1hex msg).length = 40 := by
  rw [sha1hex, hexOfBytes_length, sha1Bytes_length]

/-- C2: the envelope construction is the type label, one space, the decimal
ASCII payload length, one NUL and the payload; the declared length field
parsed back from the envelope denotes exactly the payload byte count; and
the envelope HashObject builds is this construction with the "blob" label. -/
theorem C2_frame_envelope (t p : List Nat) (ht0 : ¬ 0 ∈ t) (hts : ¬ 32 ∈ t) :
    frameEnv t p = t ++ [32] ++ natDecBytes p.length ++ [0] ++ p
    ∧ declaredLen (frameEnv t p) = some p.length
    ∧ hashObjectEnvelope p = frameEnv (strBytes "blob") p := by
  refine ⟨by simp [frameEnv], ?_, ?_⟩
  · have hsplit : frameEnv t p = (t ++ 32 :: natDecBytes p.length) ++ 0 :: p := by
      simp [frameEnv]
    have hhead : ¬ 0 ∈ t ++ 32 :: natDecBytes p.length := by
      intro hc
      rcases List.mem_append.mp hc with hc | hc
      · exact ht0 hc
      · rcases List.mem_cons.mp hc with hc | hc
        · omega
        · exact zero_not_mem_natDecBytes p.length hc
    have h1 : unframe (frameEnv t p) = some (t ++ 32 :: natDecBytes p.length, p) := by
      rw [unframe, hsplit]
      exact scanUntil_append 0 _ _ hhead
    have h2 : scanUntil 32 (t ++ 32 :: natDecBytes p.length) = some (t, natDecBytes p.length) :=
      scanUntil_append 32 t (natDecBytes p.length) hts
    simp only [declaredLen, h1, h2]
    rw [if_pos ⟨natDecBytes_ne_nil p.length, natDecBytes_digits p.length⟩, decValue_natDecBytes]
  · have hblob : strBytes "blob " = strBytes "blob" ++ [32] := by decide
    rw [hashObjectEnvelope, frameEnv, hblob]
    simp

/-- C2 witness at the concrete label "tree" and a two-byte payload. -/
theorem C2_frame_envelope_witness :
    declaredLen (frameEnv (strBytes "tree") [5, 6]) = some 2 :=
  (C2_frame_envelope (strBytes "tree") [5, 6] (by decide) (by decide)).2.1

/-- C3: for every identifier of valid length (at least the two characters
the slices require), the read side derives directory h[0:2] and file name
h[2:], and the write side builds the same two components into its path. -/
theorem C3_path_derivation (h : List Nat) (hlen : 2 ≤ h.length) :
    catFileDerivePath h = some (h.take 2, h.drop 2)
    ∧ blobPath h = strBytes "./.git/objects/" ++ h.take 2 ++ 47 :: h.drop 2 := by
  match h, hlen with
  | a :: b :: rest, _ =>
    constructor
    · rw [catFileDerivePath, if_pos (by simp)]
    · rw [blobPath_eq a b rest]
      simp

/-- C3 witness at the concrete 40-character identifier of the hello-world
blob. -/
theorem C3_path_derivation_witness :
    catFileDerivePath (strBytes "95d09f2b10159347eece71399a7e2e907ea3df4f")
      = some (strBytes "95", strBytes "d09f2b10159347eece71399a7e2e907ea3df4f")
    ∧ blobPath (strBytes "95d09f2b10159347eece71399a7e2e907ea3df4f")
      = strBytes "./.git/objects/95/d09f2b10159347eece71399a7e2e907ea3df4f" := by
  have hmain := C3_path_derivation (strBytes "95d09f2b10159347eece71399a7e2e907ea3df4f") (by decide)
  refine ⟨?_, ?_⟩
  · rw [hmain.1]; decide
  · rw [hmain.2]; decide

/-- C8 amended: unframing fails exactly when the envelope has no NUL byte;
when it succeeds, the envelope is split at its first NUL into a NUL-free
header and the entire rest as payload, with no validation of the header
form or of the declared length. -/
theorem C8_unframe_first_nul (l : List Nat) :
    (unframe l = none ↔ ¬ 0 ∈ l)
    ∧ (∀ hd b, unframe l = some (hd, b) → ¬ 0 ∈ hd ∧ l = hd ++ 0 :: b)
    ∧ (∀ hd b, ¬ 0 ∈ hd → l = hd ++ 0 :: b → unframe l = some (hd, b)) := by
  refine ⟨scanUntil_eq_none 0 l, ?_, ?_⟩
  · intro hd b hsome
    exact scanUntil_eq_some 0 l hd b hsome
  · intro hd b hmem heq
    rw [unframe, heq]
    exact scanUntil_append 0 hd b hmem

/-- C8 witness: the characterization applied to a concrete envelope with a
NUL-free header and a payload. -/
theorem C8_unframe_first_nul_witness :
    ¬ 0 ∈ strBytes "blob 2" ∧ strBytes "blob 2\x00hi" = strBytes "blob 2" ++ 0 :: strBytes "hi" :=
  (C8_unframe_first_nul (strBytes "blob 2\x00hi")).2.1 (strBytes "blob 2") (strBytes "hi")
    (by decide)

theorem parseTreeAux_step (f : Nat) (l : List Nat) (hne : l ≠ []) :
    parseTreeAux (f + 1) l =
      match scanUntil 32 l with
      | none => none
      | some (mode, r1) =>
        match scanUntil 0 r1 with
        | none => none
        | some (name, r2) =>
          match takeExact 20 r2 with
          | none => none
          | some (sha, r3) =>
            match parseTreeAux f r3 with
            | none => none
            | some es => some (⟨mode, name, hexOfBytes sha⟩ :: es) := by
  cases l with
  | nil => exact absurd rfl hne
  | cons x xs => rfl

theorem parseTree_entriesBytes_aux : ∀ (entries : List TreeEntry) (fuel : Nat),
    (∀ e ∈ entries, ¬ 32 ∈ e.mode ∧ ¬ 0 ∈ e.name ∧ e.sha.length = 20) →
    (entriesBytes entries).length ≤ fuel →
    parseTreeAux fuel (entriesBytes entries) = some (entries.map entryHex) := by
  intro entries
  induction entries with
  | nil => intro fuel _ _; cases fuel <;> rfl
  | cons e es ih =>
    intro fuel hv hfuel
    obtain ⟨hm, hn, hs⟩ := hv e (by simp)
    have hbytes : entriesBytes (e :: es)
        = e.mode ++ 32 :: (e.name ++ 0 :: (e.sha ++ entriesBytes es)) := by
      show encodeEntry e ++ entriesBytes es = _
      rw [encodeEntry]
      simp
    have hlen : (entriesBytes (e :: es)).length
        = e.mode.length + e.name.length + 22 + (entriesBytes es).length := by
      rw [hbytes]
      simp [hs]
      omega
    have hne : entriesBytes (e :: es) ≠ [] := by
      rw [hbytes]
      simp
    cases fuel with
    | zero => rw [hlen] at hfuel; omega
    | succ f =>
      have h1 : scanUntil 32 (entriesBytes (e :: es))
          = some (e.mode, e.name ++ 0 :: (e.sha ++ entriesBytes es)) := by
        rw [hbytes]
        exact scanUntil_append 32 _ _ hm
      have h2 : scanUntil 0 (e.name ++ 0 :: (e.sha ++ entriesBytes es))
          = some (e.name, e.sha ++ entriesBytes es) := scanUntil_append 0 _ _ hn
      have h3 : takeExact 20 (e.sha ++ entriesBytes es) = some (e.sha, entriesBytes es) :=
        takeExact_append 20 _ _ hs
      have hrec : parseTreeAux f (entriesBytes es) = some (es.map entryHex) := by
        refine ih f (fun e' he' => hv e' (by simp [he'])) ?_
        rw [hlen] at hfuel
        omega
      rw [parseTreeAux_step f _ hne]
      simp only [h1, h2, h3, hrec]
      simp [entryHex]

/-- C6: decoding a well-formed tree payload (the concatenation of encoded
entries whose modes contain no space, whose names contain no NUL, and whose
identifiers are twenty bytes) returns exactly those entries, identifiers
hex-rendered, in their on-disk order — no sort is imposed by the parse. -/
theorem C6_decode_on_disk_order (entries : List TreeEntry)
    (hv : ∀ e ∈ entries, ¬ 32 ∈ e.mode ∧ ¬ 0 ∈ e.name ∧ e.sha.length = 20) :
    parseTree (entriesBytes entries) = some (entries.map entryHex) :=
  parseTree_entriesBytes_aux entries (entriesBytes entries).length hv (Nat.le_refl _)

/-- C6 witness: a concrete payload whose entries are deliberately not in
sorted name order (name "b" before name "a") decodes to the entries in that
same on-disk order. -/
theorem C6_decode_on_disk_order_witness :
    parseTree (entriesBytes [entB, entA]) = some [entryHex entB, entryHex entA] := by
  have hmain := C6_decode_on_disk_order [entB, entA] (by decide)
  rw [hmain]
  decide

theorem bytesLt_cons (a b : Nat) (as bs : List Nat) :
    bytesLt (a :: as) (b :: bs)
      = if a < b then true else if b < a then false else bytesLt as bs := rfl

theorem bytesLt_asymm : ∀ x y, bytesLt x y = true → bytesLt y x = false := by
  intro x
  induction x with
  | nil =>
    intro y h
    cases y with
    | nil => exact absurd h (by simp [bytesLt])
    | cons b bs => rfl
  | cons a as ih =>
    intro y h
    cases y with
    | nil => exact absurd h (by simp [bytesLt])
    | cons b bs =>
      rw [bytesLt_cons] at h
      rw [bytesLt_cons]
      by_cases h1 : a < b
      · rw [if_neg (by omega), if_pos h1]
      · rw [if_neg h1] at h
        by_cases h2 : b < a
        · rw [if_pos h2] at h
          exact absurd h (by simp)
        · rw [if_neg h2] at h
          rw [if_neg h2, if_neg h1]
          exact ih bs h

theorem bytesLt_conn : ∀ x y, x ≠ y → bytesLt x y = true ∨ bytesLt y x = true := by
  intro x
  induction x with
  | nil =>
    intro y hne
    cases y with
    | nil => exact absurd rfl hne
    | cons b bs => left; rfl
  | cons a as ih =>
    intro y hne
    cases y with
    | nil => right; rfl
    | cons b bs =>
      by_cases h1 : a < b
      · left; rw [bytesLt_cons, if_pos h1]
      · by_cases h2 : b < a
        · right; rw [bytesLt_cons, if_pos h2]
        · have hab : a = b := by omega
          subst hab
          have htail : as ≠ bs := fun hc => hne (by rw [hc])
          rcases ih bs htail with h | h
          · left; rw [bytesLt_cons, if_neg h1, if_neg h2]; exact h
          · right; rw [bytesLt_cons, if_neg h1, if_neg h2]; exact h

theorem bytesLt_trans : ∀ x y z, bytesLt x y = true → bytesLt y z = true →
    bytesLt x z = true := by
  intro x
  induction x with
  | nil =>
    intro y z h1 h2
    cases y with
    | nil => exact absurd h1 (by simp [bytesLt])
    | cons b bs =>
      cases z with
      | nil => exact absurd h2 (by simp [bytesLt])
      | cons c cs => rfl
  | cons a as ih =>
    intro y z h1 h2
    cases y with
    | nil => exact absurd h1 (by simp [bytesLt])
    | cons b bs =>
      cases z with
      | nil => exact absurd h2 (by simp [bytesLt])
      | cons c cs =>
        rw [bytesLt_cons] at h1 h2
        rw [bytesLt_cons]
        by_cases hab : a < b
        · by_cases hbc : b < c
          · rw [if_pos (by omega)]
          · rw [if_neg hbc] at h2
            by_cases hcb : c < b
            · rw [if_pos hcb] at h2
              exact absurd h2 (by simp)
            · have hbc' : b = c := by omega
              rw [if_pos (by omega)]
        · rw [if_neg hab] at h1
          by_cases hba : b < a
          · rw [if_pos hba] at h1
            exact absurd h1 (by simp)
          · have hab' : a = b := by omega
            subst hab'
            rw [if_neg hba] at h1
            by_cases hbc : a < c
            · rw [if_pos hbc]
            · rw [if_neg hbc] at h2
              by_cases hcb : c < a
              · rw [if_pos hcb] at h2
                exact absurd h2 (by simp)
              · rw [if_neg hcb] at h2
                rw [if_neg hbc, if_neg hcb]
                exact ih bs cs h1 h2

theorem entryLe_total (a b : TreeEntry) (h : entryLe a b = false) : entryLe b a = true := by
  rw [entryLe] at h
  rw [entryLe]
  have hlt : bytesLt b.name a.name = true := by
    cases hc : bytesLt b.name a.name with
    | false => rw [hc] at h; exact absurd h (by simp)
    | true => rfl
  rw [bytesLt_asymm b.name a.name hlt]
  rfl

theorem entryLe_trans (a b c : TreeEntry) (h1 : entryLe a b = true) (h2 : entryLe b c = true) :
    entryLe a c = true := by
  rw [entryLe] at h1 h2
  rw [entryLe]
  cases hc : bytesLt c.name a.name with
  | false => rfl
  | true =>
    exfalso
    by_cases hcb : c.name = b.name
    · rw [hcb] at hc
      rw [hc] at h1
      exact absurd h1 (by simp)
    · rcases bytesLt_conn c.name b.name hcb with h | h
      · rw [h] at h2
        exact absurd h2 (by simp)
      · have := bytesLt_trans b.name c.name a.name h hc
        rw [this] at h1
        exact absurd h1 (by simp)

theorem insertEntry_perm (e : TreeEntry) : ∀ l, (insertEntry e l).Perm (e :: l) := by
  intro l
  induction l with
  | nil => exact List.Perm.refl _
  | cons f rest ih =>
    rw [show insertEntry e (f :: rest)
        = if entryLe e f then e :: f :: rest else f :: insertEntry e rest from rfl]
    by_cases h : entryLe e f
    · rw [if_pos h]
    · rw [if_neg h]
      exact (ih.cons f).trans (List.Perm.swap e f rest)

theorem sortByName_perm : ∀ l, (sortByName l).Perm l := by
  intro l
  induction l with
  | nil => exact List.Perm.refl _
  | cons e rest ih =>
    exact (insertEntry_perm e (sortByName rest)).trans (ih.cons e)

theorem mem_insertEntry (x e : TreeEntry) (l : List TreeEntry) :
    x ∈ insertEntry e l ↔ x = e ∨ x ∈ l := by
  rw [(insertEntry_perm e l).mem_iff, List.mem_cons]

theorem pairwise_insertEntry (e : TreeEntry) : ∀ l : List TreeEntry,
    l.Pairwise (fun a b => entryLe a b = true) →
    (insertEntry e l).Pairwise (fun a b => entryLe a b = true) := by
  intro l
  induction l with
  | nil => intro _; simp [insertEntry]
  | cons f rest ih =>
    intro h
    rw [List.pairwise_cons] at h
    rw [show insertEntry e (f :: rest)
        = if entryLe e f then e :: f :: rest else f :: insertEntry e rest from rfl]
    by_cases hef : entryLe e f
    · rw [if_pos hef, List.pairwise_cons]
      constructor
      · intro x hx
        rcases List.mem_cons.mp hx with hx | hx
        · rw [hx]; exact hef
        · exact entryLe_trans e f x hef (h.1 x hx)
      · rw [List.pairwise_cons]
        exact h
    · rw [if_neg hef, List.pairwise_cons]
      constructor
      · intro x hx
        rcases (mem_insertEntry x e rest).mp hx with hx | hx
        · rw [hx]
          exact entryLe_total e f (by cases hc : entryLe e f with
            | true => exact absurd hc hef
            | false => rfl)
        · exact h.1 x hx
      · exact ih h.2

theorem sortByName_pairwise : ∀ l : List TreeEntry,
    (sortByName l).Pairwise (fun a b => entryLe a b = true) := by
  intro l
  induction l with
  | nil => simp [sortByName]
  | cons e rest ih => exact pairwise_insertEntry e (sortByName rest) ih

instance : IsAntisymm TreeEntry entryLtP :=
  ⟨fun a b h1 h2 => by
    exfalso
    have h3 := bytesLt_asymm a.name b.name h1
    rw [entryLtP] at h2
    rw [h2] at h3
    exact Bool.noConfusion h3⟩

theorem pairwise_strict_of_nodup (l : List TreeEntry)
    (hle : l.Pairwise (fun a b => entryLe a b = true))
    (hn : (l.map TreeEntry.name).Nodup) : l.Pairwise entryLtP := by
  rw [List.Nodup, List.pairwise_map] at hn
  refine (hle.and hn).imp ?_
  intro a b hab
  rw [entryLtP]
  rcases bytesLt_conn a.name b.name hab.2 with h | h
  · exact h
  · exfalso
    have := hab.1
    rw [entryLe, h] at this
    exact absurd this (by simp)

theorem sortByName_eq_of_perm (l l' : List TreeEntry) (hp : l.Perm l')
    (hn : (l.map TreeEntry.name).Nodup) : sortByName l = sortByName l' := by
  have hn' : (l'.map TreeEntry.name).Nodup := ((hp.map TreeEntry.name).nodup_iff).mp hn
  have hnl : ((sortByName l).map TreeEntry.name).Nodup :=
    (((sortByName_perm l).map TreeEntry.name).nodup_iff).mpr hn
  have hnl' : ((sortByName l').map TreeEntry.name).Nodup :=
    (((sortByName_perm l').map TreeEntry.name).nodup_iff).mpr hn'
  have hperm : (sortByName l).Perm (sortByName l') :=
    (sortByName_perm l).trans (hp.trans (sortByName_perm l').symm)
  have hs1 := pairwise_strict_of_nodup (sortByName l) (sortByName_pairwise l) hnl
  have hs2 := pairwise_strict_of_nodup (sortByName l') (sortByName_pairwise l') hnl'
  exact @List.eq_of_perm_of_sorted TreeEntry entryLtP _ _ _ hperm hs1 hs2

/-- C7: encoding sorts the entries by name, ascending and byte-wise, before
concatenating, so the output is invariant under the caller-supplied order
(for entry lists with distinct names); and on the concrete two-entry input
with names "b" then "a", the entry named "a" is placed first in the output
bytes. -/
theorem C7_encode_sorts (l l' : List TreeEntry) (hp : l.Perm l')
    (hn : (l.map TreeEntry.name).Nodup) :
    treeEncode l = treeEncode l'
    ∧ (sortByName l).Pairwise (fun a b => entryLe a b = true)
    ∧ treeEncode [entB, entA] = encodeEntry entA ++ encodeEntry entB := by
  refine ⟨?_, sortByName_pairwise l, by decide⟩
  rw [treeEncode, treeEncode, sortByName_eq_of_perm l l' hp hn]

/-- C7 witness: the two concrete orderings of the scenario entries encode to
the same bytes. -/
theorem C7_encode_sorts_witness : treeEncode [entB, entA] = treeEncode [entA, entB] :=
  (C7_encode_sorts [entB, entA] [entA, entB] (by decide) (by decide)).1

theorem norm_catPath (d f : List Nat) : normPath (catPathOf d f) = catPathOf d f := by
  have hsplit : catPathOf d f = 46 :: 103 :: (strBytes "it/objects/" ++ d ++ 47 :: f) := by
    rw [catPathOf, show strBytes ".git/objects/" = 46 :: 103 :: strBytes "it/objects/" from by decide]
    simp
  rw [normPath, hsplit]
  rw [if_neg (by simp)]

theorem norm_blobPath (a b : Nat) (rest : List Nat) :
    normPath (blobPath (a :: b :: rest)) = catPathOf [a, b] rest := by
  rw [blobPath_eq a b rest,
    show strBytes "./.git/objects/" = 46 :: 47 :: strBytes ".git/objects/" from by decide]
  rw [normPath]
  rw [if_pos (by simp)]
  rw [catPathOf]
  simp

theorem fsRead_fsWrite (p q v : List Nat) (st : FS) (h : normPath p = normPath q) :
    fsRead p (fsWrite q v st) = some v := by
  rw [fsRead, fsWrite]
  rw [List.find?_cons_of_pos _ (by simp [h])]
  rfl

theorem unframe_frameEnv (t p : List Nat) (ht0 : ¬ 0 ∈ t) :
    unframe (frameEnv t p) = some (t ++ 32 :: natDecBytes p.length, p) := by
  have hsplit : frameEnv t p = (t ++ 32 :: natDecBytes p.length) ++ 0 :: p := by
    simp [frameEnv]
  have hhead : ¬ 0 ∈ t ++ 32 :: natDecBytes p.length := by
    intro hc
    rcases List.mem_append.mp hc with hc | hc
    · exact ht0 hc
    · rcases List.mem_cons.mp hc with hc | hc
      · omega
      · exact zero_not_mem_natDecBytes p.length hc
  rw [unframe, hsplit]
  exact scanUntil_append 0 _ _ hhead

/-- C1: storing a payload p under a NUL-free, space-free type label t and
reading the returned identifier back yields the header "t <len>" and the
payload p exactly; splitting that header at its space recovers the label
and the decimal length field, whose value is the payload byte count. -/
theorem C1_roundtrip (comp decomp : List Nat → List Nat)
    (hcd : ∀ x, decomp (comp x) = x) (t p : List Nat)
    (ht0 : ¬ 0 ∈ t) (hts : ¬ 32 ∈ t) (st : FS) :
    getObject decomp (putObject comp true t p st).2 (putObject comp true t p st).1
      = some (t ++ 32 :: natDecBytes p.length, p)
    ∧ scanUntil 32 (t ++ 32 :: natDecBytes p.length) = some (t, natDecBytes p.length)
    ∧ decValue (natDecBytes p.length) = p.length := by
  refine ⟨?_, scanUntil_append 32 t _ hts, decValue_natDecBytes p.length⟩
  have hput1 : (putObject comp true t p st).1 = sha1hex (frameEnv t p) := rfl
  have hput2 : (putObject comp true t p st).2
      = fsWrite (blobPath (sha1hex (frameEnv t p))) (comp (frameEnv t p)) st := rfl
  rw [hput1, hput2]
  have hlen : 2 ≤ (sha1hex (frameEnv t p)).length := by
    rw [sha1hex_length]
    omega
  have hderive : catFileDerivePath (sha1hex (frameEnv t p))
      = some ((sha1hex (frameEnv t p)).take 2, (sha1hex (frameEnv t p)).drop 2) := by
    rw [catFileDerivePath, if_pos hlen]
  have hnorm : normPath (catPathOf ((sha1hex (frameEnv t p)).take 2)
        ((sha1hex (frameEnv t p)).drop 2))
      = normPath (blobPath (sha1hex (frameEnv t p))) := by
    match hh : sha1hex (frameEnv t p), hlen with
    | a :: b :: rest, _ =>
      rw [norm_blobPath a b rest, norm_catPath]
      rfl
  have hread : fsRead (catPathOf ((sha1hex (frameEnv t p)).take 2)
        ((sha1hex (frameEnv t p)).drop 2))
      (fsWrite (blobPath (sha1hex (frameEnv t p))) (comp (frameEnv t p)) st)
      = some (comp (frameEnv t p)) :=
    fsRead_fsWrite _ _ _ st hnorm
  simp only [getObject, hderive, hread]
  rw [hcd (frameEnv t p)]
  exact unframe_frameEnv t p ht0

/-- C1 witness: the round trip at the identity compression codec, the label
"blob" and the payload "hi" over the empty filesystem. -/
theorem C1_roundtrip_witness :
    getObject (fun x => x)
        (putObject (fun x => x) true (strBytes "blob") (strBytes "hi") []).2
        (putObject (fun x => x) true (strBytes "blob") (strBytes "hi") []).1
      = some (strBytes "blob 2", strBytes "hi") := by
  have hmain := C1_roundtrip (fun x => x) (fun x => x) (fun x => rfl)
    (strBytes "blob") (strBytes "hi") (by decide) (by decide) []
  rw [hmain.1]
  decide
